import Mathlib

/-!
Verification of SnapPea's `core_geodesics.c` (functions `core_geodesic` and
`compute_core_geodesic`).

Shallow embedding conventions:

* The C `Real` (a floating-point double) is embedded as `ℚ`, with exact
  arithmetic; the constants `PI` and `TORSION_EPSILON` are the rational
  values of the corresponding C literals.
* The C `Complex` struct (fields `real`, `imag`) becomes the structure
  `SnapPea.Complex` below, and the complex helpers `complex_plus`,
  `complex_real_mult`, `complex_negate` are the evident componentwise
  operations (they live in `complex.c`, outside the sources at hand, but
  their contracts are fixed by the spec: componentwise addition, real
  scalar multiplication and negation of a (real, imaginary) pair).
* A `Cusp` carries exactly the fields `compute_core_geodesic` reads:
  `is_complete`, `topology`, the Dehn filling coefficients `m`, `l`
  (reals), and the two holonomy snapshots, indexed by
  `ultimate`/`penultimate` and `M`/`L`.
* The external predicate `Dehn_coefficients_are_integers` is an abstract
  parameter `dci : Cusp → Bool` of the embedded functions (its internals
  are tolerance-based and external to this core); likewise the external
  comparator `complex_decimal_places_of_accuracy` is a parameter
  `dpa : Complex → Complex → ℤ`, and the cusp lookup `find_cusp` is
  abstracted by passing the cusp itself.
* The two C `while` loops that normalize the torsion angle become the
  well-founded recursions `torsion_up` and `torsion_down`; the fueled
  variants `torsion_up_fuel`/`torsion_down_fuel` (returning `none` when
  the fuel runs out mid-loop) are used to state that the loops terminate.
* The C casts `(long int) cusp->m`, `(long int) cusp->l` truncate toward
  zero; `trunc` embeds that.
-/

namespace SnapPea

/-- Embedding of the C `Complex` struct of `complex.h`: a pair of reals
(fields `real` and `imag`), with reals embedded as `ℚ`. -/
structure Complex where
  real : ℚ
  imag : ℚ
deriving DecidableEq

/-- The distinguished zero complex constant `Zero` of the SnapPea kernel. -/
def Zero : Complex := ⟨0, 0⟩

/-- Modelled from the spec: componentwise complex addition, one of the
complex-arithmetic primitives this core consumes (`complex.c` is not among
the sources at hand). -/
def complex_plus (z w : Complex) : Complex := ⟨z.real + w.real, z.imag + w.imag⟩

/-- Modelled from the spec: multiplication of a complex value by a real
scalar, a complex-arithmetic primitive this core consumes. -/
def complex_real_mult (r : ℚ) (z : Complex) : Complex := ⟨r * z.real, r * z.imag⟩

/-- Modelled from the spec: complex negation, a complex-arithmetic
primitive this core consumes. -/
def complex_negate (z : Complex) : Complex := ⟨-z.real, -z.imag⟩

/-- The topology classifier of a cusp (`torus_cusp` or `Klein_cusp`),
from the kernel's `CuspTopology` enum. -/
inductive CuspTopology where
  | torus_cusp : CuspTopology
  | Klein_cusp : CuspTopology
deriving DecidableEq

/-- The part of the kernel's `Cusp` struct that `core_geodesics.c` reads:
the completeness flag, the topology, the Dehn filling coefficients `m` and
`l` (stored as reals), and the holonomy snapshots `holonomy[i][j]` with
`i ∈ {ultimate, penultimate}` and `j ∈ {M, L}`. -/
structure Cusp where
  is_complete : Bool
  topology : CuspTopology
  m : ℚ
  l : ℚ
  holonomy : Fin 2 → Fin 2 → Complex

/-- The snapshot index `ultimate` (most refined hyperbolic structure). -/
def ultimate : Fin 2 := 0

/-- The snapshot index `penultimate` (previous hyperbolic structure). -/
def penultimate : Fin 2 := 1

/-- The meridian index `M` into a holonomy snapshot. -/
def M : Fin 2 := 0

/-- The longitude index `L` into a holonomy snapshot. -/
def L : Fin 2 := 1

/-- The C constant `PI` as the exact rational value of its literal. -/
def PI : ℚ := 3.14159265358979323846

/-- The constant `TORSION_EPSILON` (`#define TORSION_EPSILON 1e-5`). -/
def TORSION_EPSILON : ℚ := 1e-5

/-- Truncation toward zero, the semantics of the C cast `(long int) x`
applied to a real value (lines 178-179 of `core_geodesics.c`). -/
def trunc (q : ℚ) : ℤ := if 0 ≤ q then ⌊q⌋ else ⌈q⌉

/-- Modelled from the spec: SnapPea's standard `euclidean_algorithm`
function lives in the kernel outside the sources at hand; per the spec it
returns the non-negative gcd `g = gcd(|m|,|l|)` (gcd with a zero argument
returning the other magnitude) together with Bézout coefficients `d`, `c`
satisfying `d*m - c*l = g`.  The result triple is `(g, d, c)`, the last
two components being what the call site binds to `positive_d` and
`negative_c` respectively. -/
def euclidean_algorithm (m l : ℤ) : ℤ × ℤ × ℤ :=
  ((Int.gcd m l : ℕ), Int.gcdA m l, -(Int.gcdB m l))

/-- Embedding of lines 190-199 of `core_geodesics.c`:
`length[i] = complex_plus(complex_real_mult(-negative_c, holonomy[i][M]),
complex_real_mult(positive_d, holonomy[i][L]))`. -/
def raw_length (positive_d negative_c : ℤ) (hm hl : Complex) : Complex :=
  complex_plus
    (complex_real_mult ((-negative_c : ℤ) : ℚ) hm)
    (complex_real_mult ((positive_d : ℤ) : ℚ) hl)

/-- Embedding of lines 204-205 of `core_geodesics.c`: negate the length
when its real part is negative. -/
def fix_sign (z : Complex) : Complex :=
  if z.real < 0 then complex_negate z else z

/-- Embedding of the first normalization loop (lines 215-216):
`while (imag < -pi_over_n + TORSION_EPSILON) imag += 2.0 * pi_over_n`.
The conjunct `0 < P` is a definability guard; at every call site
`P = 2 * pi_over_n > 0` and the branch condition agrees with the C guard. -/
def torsion_up (lo P x : ℚ) : ℚ :=
  if h : 0 < P ∧ x < lo then torsion_up lo P (x + P) else x
termination_by (⌈(lo - x) / P⌉).toNat
decreasing_by
  have hP := h.1
  have h1 : (lo - (x + P)) / P = (lo - x) / P - 1 := by
    field_simp
    ring
  have h2 : (0 : ℤ) < ⌈(lo - x) / P⌉ := by
    rw [Int.ceil_pos]
    exact div_pos (by linarith [h.2]) hP
  rw [h1, Int.ceil_sub_one]
  omega

/-- Embedding of the second normalization loop (lines 218-219):
`while (imag > pi_over_n + TORSION_EPSILON) imag -= 2.0 * pi_over_n`.
The conjunct `0 < P` is a definability guard as in `torsion_up`. -/
def torsion_down (hi P x : ℚ) : ℚ :=
  if h : 0 < P ∧ hi < x then torsion_down hi P (x - P) else x
termination_by (⌈(x - hi) / P⌉).toNat
decreasing_by
  have hP := h.1
  have h1 : (x - P - hi) / P = (x - hi) / P - 1 := by
    field_simp
    ring
  have h2 : (0 : ℤ) < ⌈(x - hi) / P⌉ := by
    rw [Int.ceil_pos]
    exact div_pos (by linarith [h.2]) hP
  rw [h1, Int.ceil_sub_one]
  omega

/-- Embedding of lines 207-219 of `core_geodesics.c`: normalize the
torsion (the imaginary part) into the window around zero of width
`2 * pi_over_n`, leaving the real part untouched. -/
def normalize_torsion (pi_over_n : ℚ) (z : Complex) : Complex :=
  ⟨z.real,
   torsion_down (pi_over_n + TORSION_EPSILON) (2 * pi_over_n)
     (torsion_up (-pi_over_n + TORSION_EPSILON) (2 * pi_over_n) z.imag)⟩

/-- Embedding of lines 229-230 of `core_geodesics.c`: for a Klein bottle
cusp, halve the real part of the length. -/
def klein_adjust (topology : CuspTopology) (z : Complex) : Complex :=
  if topology = CuspTopology.Klein_cusp then ⟨z.real / 2, z.imag⟩ else z

/-- The per-snapshot body of the `for (i = 0; i < 2; i++)` loop of
`compute_core_geodesic` (lines 183-232): raw length, sign fix, torsion
normalization with `pi_over_n = PI / *singularity_index`, Klein-bottle
correction. -/
def process_snapshot (cusp : Cusp) (singularity_index positive_d negative_c : ℤ)
    (i : Fin 2) : Complex :=
  klein_adjust cusp.topology
    (normalize_torsion (PI / (singularity_index : ℚ))
      (fix_sign
        (raw_length positive_d negative_c (cusp.holonomy i M) (cusp.holonomy i L))))

/-- Embedding of `compute_core_geodesic` (lines 145-233 of
`core_geodesics.c`).  The external predicate
`Dehn_coefficients_are_integers` is the abstract parameter `dci`.  The
result is the pair of the singularity index and the two length
snapshots. -/
def compute_core_geodesic (dci : Cusp → Bool) (cusp : Cusp) :
    ℤ × (Fin 2 → Complex) :=
  if cusp.is_complete || !(dci cusp) then
    (0, fun _ => Zero)
  else
    ((euclidean_algorithm (trunc cusp.m) (trunc cusp.l)).1,
     fun i =>
       process_snapshot cusp
         (euclidean_algorithm (trunc cusp.m) (trunc cusp.l)).1
         (euclidean_algorithm (trunc cusp.m) (trunc cusp.l)).2.1
         (euclidean_algorithm (trunc cusp.m) (trunc cusp.l)).2.2
         i)

/-- Embedding of the wrapper `core_geodesic` (lines 104-142 of
`core_geodesics.c`).  The cusp lookup `find_cusp` is abstracted by passing
the cusp itself; the external comparator
`complex_decimal_places_of_accuracy` is the abstract parameter `dpa`; the
nullable `precision` out-pointer becomes the flag `precision_requested`
with an `Option ℤ` result. -/
def core_geodesic (dci : Cusp → Bool) (dpa : Complex → Complex → ℤ)
    (cusp : Cusp) (precision_requested : Bool) : ℤ × Complex × Option ℤ :=
  if (compute_core_geodesic dci cusp).1 ≠ 0 then
    ((compute_core_geodesic dci cusp).1,
     (compute_core_geodesic dci cusp).2 ultimate,
     if precision_requested then
       some (dpa ((compute_core_geodesic dci cusp).2 ultimate)
                 ((compute_core_geodesic dci cusp).2 penultimate))
     else none)
  else
    ((compute_core_geodesic dci cusp).1,
     Zero,
     if precision_requested then some 0 else none)

/-- Fueled variant of `torsion_up`: `none` when the loop has not exited
within `fuel` iterations.  Termination of the C loop at an input is the
existence of a fuel on which this returns `some`. -/
def torsion_up_fuel (lo P : ℚ) : ℕ → ℚ → Option ℚ
  | 0, x => if 0 < P ∧ x < lo then none else some x
  | fuel + 1, x =>
      if 0 < P ∧ x < lo then torsion_up_fuel lo P fuel (x + P) else some x

/-- Fueled variant of `torsion_down`. -/
def torsion_down_fuel (hi P : ℚ) : ℕ → ℚ → Option ℚ
  | 0, x => if 0 < P ∧ hi < x then none else some x
  | fuel + 1, x =>
      if 0 < P ∧ hi < x then torsion_down_fuel hi P fuel (x - P) else some x

/-- Fueled variant of `normalize_torsion`. -/
def normalize_torsion_fuel (fuel : ℕ) (pi_over_n : ℚ) (z : Complex) :
    Option Complex :=
  Option.bind
    (torsion_up_fuel (-pi_over_n + TORSION_EPSILON) (2 * pi_over_n) fuel z.imag)
    (fun y =>
      Option.bind
        (torsion_down_fuel (pi_over_n + TORSION_EPSILON) (2 * pi_over_n) fuel y)
        (fun y2 => some ⟨z.real, y2⟩))

/-- Fueled variant of `process_snapshot`. -/
def process_snapshot_fuel (fuel : ℕ) (cusp : Cusp)
    (singularity_index positive_d negative_c : ℤ) (i : Fin 2) : Option Complex :=
  Option.bind
    (normalize_torsion_fuel fuel (PI / (singularity_index : ℚ))
      (fix_sign
        (raw_length positive_d negative_c (cusp.holonomy i M) (cusp.holonomy i L))))
    (fun z => some (klein_adjust cusp.topology z))

/-- Fueled variant of `compute_core_geodesic`: `none` when either
normalization loop of either snapshot fails to exit within `fuel`
iterations. -/
def compute_core_geodesic_fuel (fuel : ℕ) (dci : Cusp → Bool) (cusp : Cusp) :
    Option (ℤ × (Fin 2 → Complex)) :=
  if cusp.is_complete || !(dci cusp) then
    some (0, fun _ => Zero)
  else
    Option.bind
      (process_snapshot_fuel fuel cusp
        (euclidean_algorithm (trunc cusp.m) (trunc cusp.l)).1
        (euclidean_algorithm (trunc cusp.m) (trunc cusp.l)).2.1
        (euclidean_algorithm (trunc cusp.m) (trunc cusp.l)).2.2
        ultimate)
      (fun z0 =>
        Option.bind
          (process_snapshot_fuel fuel cusp
            (euclidean_algorithm (trunc cusp.m) (trunc cusp.l)).1
            (euclidean_algorithm (trunc cusp.m) (trunc cusp.l)).2.1
            (euclidean_algorithm (trunc cusp.m) (trunc cusp.l)).2.2
            penultimate)
          (fun z1 =>
            some ((euclidean_algorithm (trunc cusp.m) (trunc cusp.l)).1,
                  fun i => if i = ultimate then z0 else z1)))

/-- The trivially true coefficients-are-integers predicate, used to
instantiate the abstract `dci` parameter on concrete inputs below. -/
def dciTrue : Cusp → Bool := fun _ => true

/-- A concrete holonomy table: `H(m) = 1/2 + (3/10)i` and
`H(l) = 1 + (1/10)i` at both snapshots. -/
def holStd : Fin 2 → Fin 2 → Complex :=
  fun _ j => if j = L then ⟨1, 1/10⟩ else ⟨1/2, 3/10⟩

/-- A concrete filled torus cusp with coefficients `(m, l) = (1, 2)` and
holonomies `holStd`. -/
def cuspStd : Cusp :=
  ⟨false, CuspTopology.torus_cusp, 1, 2, holStd⟩

/-- A concrete filled torus cusp with coefficients `(m, l) = (4, 0)`. -/
def cuspFour : Cusp :=
  ⟨false, CuspTopology.torus_cusp, 4, 0, holStd⟩

/-- A concrete holonomy table whose ultimate longitude holonomy has
torsion exactly `-PI + TORSION_EPSILON`, the left endpoint of the
normalization window for singularity index 1. -/
def holBoundary : Fin 2 → Fin 2 → Complex :=
  fun i j => if i = ultimate ∧ j = L then ⟨1, -PI + TORSION_EPSILON⟩ else Zero

/-- A concrete filled torus cusp with coefficients `(m, l) = (1, 0)` and
holonomies `holBoundary`. -/
def cuspBoundary : Cusp :=
  ⟨false, CuspTopology.torus_cusp, 1, 0, holBoundary⟩

/-- A concrete filled cusp with non-integral coefficient `m = 4 - 1/1000`
(and `l = 0`). -/
def cuspNearFour : Cusp :=
  ⟨false, CuspTopology.torus_cusp, 4 - 1/1000, 0, holStd⟩

/-- A concrete complete (unfilled) cusp. -/
def cuspComplete : Cusp :=
  ⟨true, CuspTopology.torus_cusp, 1, 2, holStd⟩

theorem trunc_intCast (m0 : ℤ) : trunc (m0 : ℚ) = m0 := by
  rw [trunc]
  rcases le_or_lt 0 (m0 : ℚ) with h | h
  · rw [if_pos h, Int.floor_intCast]
  · rw [if_neg (not_le.mpr h), Int.ceil_intCast]

theorem PI_pos : 0 < PI := by
  rw [PI]
  norm_num

theorem torsion_up_ge (lo P x : ℚ) (hP : 0 < P) : lo ≤ torsion_up lo P x := by
  induction x using torsion_up.induct lo P with
  | case1 x h ih =>
    rw [torsion_up.eq_def, dif_pos h]
    exact ih
  | case2 x h =>
    rw [torsion_up.eq_def, dif_neg h]
    push_neg at h
    exact h hP

theorem torsion_down_le (hi P x : ℚ) (hP : 0 < P) : torsion_down hi P x ≤ hi := by
  induction x using torsion_down.induct hi P with
  | case1 x h ih =>
    rw [torsion_down.eq_def, dif_pos h]
    exact ih
  | case2 x h =>
    rw [torsion_down.eq_def, dif_neg h]
    push_neg at h
    exact h hP

theorem torsion_down_ge (hi P x b : ℚ) (hP : 0 < P) (hb : b ≤ hi - P)
    (hx : b ≤ x) : b ≤ torsion_down hi P x := by
  induction x using torsion_down.induct hi P with
  | case1 x h ih =>
    rw [torsion_down.eq_def, dif_pos h]
    exact ih (by linarith [h.2])
  | case2 x h =>
    rw [torsion_down.eq_def, dif_neg h]
    exact hx

theorem fix_sign_real_nonneg (z : Complex) : 0 ≤ (fix_sign z).real := by
  rw [fix_sign]
  by_cases h : z.real < 0
  · rw [if_pos h]
    rw [complex_negate]
    show 0 ≤ -z.real
    linarith
  · rw [if_neg h]
    exact le_of_not_lt h

theorem normalize_torsion_real (p : ℚ) (z : Complex) :
    (normalize_torsion p z).real = z.real := rfl

theorem klein_adjust_imag (t : CuspTopology) (z : Complex) :
    (klein_adjust t z).imag = z.imag := by
  rw [klein_adjust]
  by_cases h : t = CuspTopology.Klein_cusp
  · rw [if_pos h]
  · rw [if_neg h]

theorem klein_adjust_real_nonneg (t : CuspTopology) (z : Complex)
    (h : 0 ≤ z.real) : 0 ≤ (klein_adjust t z).real := by
  rw [klein_adjust]
  by_cases ht : t = CuspTopology.Klein_cusp
  · rw [if_pos ht]
    have : (Complex.mk (z.real / 2) z.imag).real = z.real / 2 := rfl
    rw [this]
    linarith
  · rw [if_neg ht]
    exact h

theorem filled_cond_false (dci : Cusp → Bool) (cusp : Cusp)
    (hc : cusp.is_complete = false) (hd : dci cusp = true) :
    (cusp.is_complete || !(dci cusp)) = false := by
  rw [hc, hd]
  rfl

theorem compute_core_geodesic_filled (dci : Cusp → Bool) (cusp : Cusp)
    (m0 l0 : ℤ) (hc : cusp.is_complete = false) (hd : dci cusp = true)
    (hm : cusp.m = (m0 : ℚ)) (hl : cusp.l = (l0 : ℚ)) :
    compute_core_geodesic dci cusp =
      (((Int.gcd m0 l0 : ℕ) : ℤ),
       fun i =>
         process_snapshot cusp ((Int.gcd m0 l0 : ℕ) : ℤ)
           (Int.gcdA m0 l0) (-(Int.gcdB m0 l0)) i) := by
  rw [compute_core_geodesic, filled_cond_false dci cusp hc hd]
  rw [if_neg (by simp)]
  rw [hm, hl, trunc_intCast, trunc_intCast, euclidean_algorithm]

theorem compute_filled_fst (dci : Cusp → Bool) (cusp : Cusp)
    (m0 l0 : ℤ) (hc : cusp.is_complete = false) (hd : dci cusp = true)
    (hm : cusp.m = (m0 : ℚ)) (hl : cusp.l = (l0 : ℚ)) :
    (compute_core_geodesic dci cusp).1 = ((Int.gcd m0 l0 : ℕ) : ℤ) := by
  rw [compute_core_geodesic_filled dci cusp m0 l0 hc hd hm hl]

theorem compute_filled_snd (dci : Cusp → Bool) (cusp : Cusp)
    (m0 l0 : ℤ) (hc : cusp.is_complete = false) (hd : dci cusp = true)
    (hm : cusp.m = (m0 : ℚ)) (hl : cusp.l = (l0 : ℚ)) (i : Fin 2) :
    (compute_core_geodesic dci cusp).2 i =
      process_snapshot cusp ((Int.gcd m0 l0 : ℕ) : ℤ)
        (Int.gcdA m0 l0) (-(Int.gcdB m0 l0)) i := by
  rw [compute_core_geodesic_filled dci cusp m0 l0 hc hd hm hl]

theorem klein_adjust_Klein (z : Complex) :
    klein_adjust CuspTopology.Klein_cusp z = ⟨z.real / 2, z.imag⟩ := by
  rw [klein_adjust, if_pos rfl]

theorem klein_adjust_torus (z : Complex) :
    klein_adjust CuspTopology.torus_cusp z = z := by
  rw [klein_adjust, if_neg]
  intro h
  exact CuspTopology.noConfusion h

/-- C1: for every filled cusp whose filling coefficients `(m, l)` are the
integers `(m0, l0)`, not both zero, `compute_core_geodesic` sets the
singularity index to `gcd(|m0|, |l0|)`, the non-negative gcd returned by
the extended Euclidean algorithm. -/
theorem C1_singularity_index_is_gcd (dci : Cusp → Bool) (cusp : Cusp)
    (m0 l0 : ℤ) (hc : cusp.is_complete = false) (hd : dci cusp = true)
    (hm : cusp.m = (m0 : ℚ)) (hl : cusp.l = (l0 : ℚ))
    (hz : ¬ (m0 = 0 ∧ l0 = 0)) :
    (compute_core_geodesic dci cusp).1 = ((Nat.gcd m0.natAbs l0.natAbs : ℕ) : ℤ) :=
  compute_filled_fst dci cusp m0 l0 hc hd hm hl

/-- C2: for every filled cusp with integer coefficients `(m0, l0)` not both
zero and each snapshot `i`, the length computed before sign-fixing and
normalization is `(-c) * H(m) + d * H(l)`, where `(g, d, c)` is the output
of the extended Euclidean algorithm, `d * m0 - c * l0 = g = gcd(|m0|,|l0|)`,
and the snapshot result of `compute_core_geodesic` is that raw value after
sign fix, torsion normalization and Klein correction. -/
theorem C2_length_formula (dci : Cusp → Bool) (cusp : Cusp)
    (m0 l0 : ℤ) (hc : cusp.is_complete = false) (hd : dci cusp = true)
    (hm : cusp.m = (m0 : ℚ)) (hl : cusp.l = (l0 : ℚ))
    (hz : ¬ (m0 = 0 ∧ l0 = 0)) (i : Fin 2) :
    (euclidean_algorithm m0 l0).2.1 * m0 - (euclidean_algorithm m0 l0).2.2 * l0
      = (euclidean_algorithm m0 l0).1 ∧
    (euclidean_algorithm m0 l0).1 = ((Nat.gcd m0.natAbs l0.natAbs : ℕ) : ℤ) ∧
    raw_length (euclidean_algorithm m0 l0).2.1 (euclidean_algorithm m0 l0).2.2
        (cusp.holonomy i M) (cusp.holonomy i L)
      = complex_plus
          (complex_real_mult (-((euclidean_algorithm m0 l0).2.2 : ℚ))
            (cusp.holonomy i M))
          (complex_real_mult (((euclidean_algorithm m0 l0).2.1 : ℚ))
            (cusp.holonomy i L)) ∧
    (compute_core_geodesic dci cusp).2 i
      = klein_adjust cusp.topology
          (normalize_torsion (PI / ((euclidean_algorithm m0 l0).1 : ℚ))
            (fix_sign
              (raw_length (euclidean_algorithm m0 l0).2.1
                (euclidean_algorithm m0 l0).2.2
                (cusp.holonomy i M) (cusp.holonomy i L)))) := by
  refine ⟨?_, rfl, ?_, ?_⟩
  · show Int.gcdA m0 l0 * m0 - -(Int.gcdB m0 l0) * l0 = ((Int.gcd m0 l0 : ℕ) : ℤ)
    rw [Int.gcd_eq_gcd_ab m0 l0]
    ring
  · show raw_length (Int.gcdA m0 l0) (-(Int.gcdB m0 l0)) _ _ = _
    rw [raw_length, Int.cast_neg]
    rfl
  · exact compute_filled_snd dci cusp m0 l0 hc hd hm hl i

/-- C3: for every complete cusp, and for every cusp whose filling
coefficients fail the integrality test, `compute_core_geodesic` returns
singularity index 0 and both length snapshots equal to the zero complex
value, regardless of the holonomy values. -/
theorem C3_short_circuit_zero (dci : Cusp → Bool) (cusp : Cusp)
    (h : cusp.is_complete = true ∨ dci cusp = false) :
    (compute_core_geodesic dci cusp).1 = 0 ∧
    (compute_core_geodesic dci cusp).2 ultimate = Zero ∧
    (compute_core_geodesic dci cusp).2 penultimate = Zero := by
  have hcond : (cusp.is_complete || !(dci cusp)) = true := by
    rcases h with h | h
    · rw [h, Bool.true_or]
    · rw [h, Bool.not_false, Bool.or_true]
  rw [compute_core_geodesic, hcond, if_pos rfl]
  exact ⟨rfl, rfl, rfl⟩

/-- C5: for every filled cusp with integer coefficients not both zero, the
real part of each returned snapshot length is non-negative. -/
theorem C5_real_part_nonneg (dci : Cusp → Bool) (cusp : Cusp)
    (m0 l0 : ℤ) (hc : cusp.is_complete = false) (hd : dci cusp = true)
    (hm : cusp.m = (m0 : ℚ)) (hl : cusp.l = (l0 : ℚ))
    (hz : ¬ (m0 = 0 ∧ l0 = 0)) (i : Fin 2) :
    0 ≤ ((compute_core_geodesic dci cusp).2 i).real := by
  rw [compute_filled_snd dci cusp m0 l0 hc hd hm hl i, process_snapshot]
  apply klein_adjust_real_nonneg
  rw [normalize_torsion_real]
  exact fix_sign_real_nonneg _

/-- C8: for every cusp, the singularity index returned by
`compute_core_geodesic` (and hence by `core_geodesic`) is never
negative. -/
theorem C8_singularity_index_nonneg (dci : Cusp → Bool)
    (dpa : Complex → Complex → ℤ) (cusp : Cusp) (precision_requested : Bool) :
    0 ≤ (compute_core_geodesic dci cusp).1 ∧
    0 ≤ (core_geodesic dci dpa cusp precision_requested).1 := by
  have h1 : 0 ≤ (compute_core_geodesic dci cusp).1 := by
    rw [compute_core_geodesic]
    by_cases hcond : (cusp.is_complete || !(dci cusp)) = true
    · rw [if_pos hcond]
    · rw [if_neg hcond]
      exact Int.natCast_nonneg _
  refine ⟨h1, ?_⟩
  rw [core_geodesic]
  by_cases hne : (compute_core_geodesic dci cusp).1 ≠ 0
  · rw [if_pos hne]
    exact h1
  · rw [if_neg hne]
    exact h1

/-- C10: the integers handed to the Euclidean algorithm come from the real
filling coefficients by truncation toward zero; in particular a
coefficient `4 - δ` (with `0 < δ < 1`) that passes the tolerance test is
used as `3`, not as the nearest integer `4`, so `(m, l) = (4 - δ, 0)`
yields singularity index `gcd(3, 0) = 3`. -/
theorem C10_truncation_toward_zero (dci : Cusp → Bool) (cusp : Cusp) (δ : ℚ)
    (hc : cusp.is_complete = false) (hd : dci cusp = true)
    (hm : cusp.m = 4 - δ) (hl : cusp.l = 0) (hδ0 : 0 < δ) (hδ1 : δ < 1) :
    trunc cusp.m = 3 ∧
    (compute_core_geodesic dci cusp).1 =
      ((Int.gcd (trunc cusp.m) (trunc cusp.l) : ℕ) : ℤ) ∧
    (compute_core_geodesic dci cusp).1 = 3 := by
  have ht : trunc cusp.m = 3 := by
    rw [hm, trunc, if_pos (by linarith)]
    rw [Int.floor_eq_iff]
    constructor
    · push_cast
      linarith
    · push_cast
      linarith
  have htl : trunc cusp.l = 0 := by
    rw [hl, trunc, if_pos le_rfl, Int.floor_zero]
  have hfst : (compute_core_geodesic dci cusp).1 =
      ((Int.gcd (trunc cusp.m) (trunc cusp.l) : ℕ) : ℤ) := by
    rw [compute_core_geodesic, filled_cond_false dci cusp hc hd]
    rw [if_neg (by simp)]
    rfl
  refine ⟨ht, hfst, ?_⟩
  rw [hfst, ht, htl]
  norm_num

/-- C6: for two cusps that differ only in topology (one Klein bottle, one
torus), with identical holonomy snapshots and filling coefficients, every
returned real length of the Klein-bottle cusp is exactly half the
corresponding real length of the torus cusp, and the imaginary parts are
equal.  The hypothesis on `dci` records that the external integrality
predicate only reads the filling coefficients, so it cannot distinguish
the two cusps. -/
theorem C6_klein_halving (dci : Cusp → Bool) (c : Cusp)
    (hdci : dci { c with topology := CuspTopology.Klein_cusp } = dci c)
    (htop : c.topology = CuspTopology.torus_cusp) (i : Fin 2) :
    ((compute_core_geodesic dci
        { c with topology := CuspTopology.Klein_cusp }).2 i).real
      = ((compute_core_geodesic dci c).2 i).real / 2 ∧
    ((compute_core_geodesic dci
        { c with topology := CuspTopology.Klein_cusp }).2 i).imag
      = ((compute_core_geodesic dci c).2 i).imag := by
  rw [compute_core_geodesic, compute_core_geodesic]
  by_cases hcond : (c.is_complete || !(dci c)) = true
  · have hcond2 : ({ c with topology := CuspTopology.Klein_cusp }.is_complete
        || !(dci { c with topology := CuspTopology.Klein_cusp })) = true := by
      rw [hdci]
      exact hcond
    rw [if_pos hcond2, if_pos hcond]
    constructor
    · show (0 : ℚ) = 0 / 2
      norm_num
    · rfl
  · have hcond2 : ¬ (({ c with topology := CuspTopology.Klein_cusp }.is_complete
        || !(dci { c with topology := CuspTopology.Klein_cusp })) = true) := by
      rw [hdci]
      exact hcond
    rw [if_neg hcond2, if_neg hcond]
    have key : ∀ w : Complex,
        (klein_adjust CuspTopology.Klein_cusp w).real
          = (klein_adjust c.topology w).real / 2 ∧
        (klein_adjust CuspTopology.Klein_cusp w).imag
          = (klein_adjust c.topology w).imag := by
      intro w
      rw [htop, klein_adjust_Klein, klein_adjust_torus]
      exact ⟨rfl, rfl⟩
    exact key _

/-- C7: whenever the engine reports singularity index 0, the wrapper
`core_geodesic` returns the zero complex value as the core length and, if a
precision estimate was requested, precision exactly 0; when the index is
nonzero, it returns the ultimate-snapshot length as the core length (and
the requested precision comes from the external comparator applied to the
two snapshots). -/
theorem C7_wrapper_packaging (dci : Cusp → Bool) (dpa : Complex → Complex → ℤ)
    (cusp : Cusp) (pr : Bool) :
    (core_geodesic dci dpa cusp pr).1 = (compute_core_geodesic dci cusp).1 ∧
    ((compute_core_geodesic dci cusp).1 = 0 →
      (core_geodesic dci dpa cusp pr).2.1 = Zero ∧
      (pr = true → (core_geodesic dci dpa cusp pr).2.2 = some 0) ∧
      (pr = false → (core_geodesic dci dpa cusp pr).2.2 = none)) ∧
    ((compute_core_geodesic dci cusp).1 ≠ 0 →
      (core_geodesic dci dpa cusp pr).2.1
        = (compute_core_geodesic dci cusp).2 ultimate ∧
      (pr = true → (core_geodesic dci dpa cusp pr).2.2
        = some (dpa ((compute_core_geodesic dci cusp).2 ultimate)
                    ((compute_core_geodesic dci cusp).2 penultimate)))) := by
  rw [core_geodesic]
  by_cases h0 : (compute_core_geodesic dci cusp).1 = 0
  · rw [if_neg (fun hcon => hcon h0)]
    refine ⟨rfl, fun _ => ⟨rfl, ?_, ?_⟩, fun hne => absurd h0 hne⟩
    · intro hpr
      show (if pr then some 0 else none) = some 0
      rw [hpr, if_pos rfl]
    · intro hpr
      show (if pr then some 0 else none) = none
      rw [hpr]
      rfl
  · rw [if_pos h0]
    refine ⟨rfl, fun he => absurd he h0, fun _ => ⟨rfl, ?_⟩⟩
    intro hpr
    show (if pr then
        some (dpa ((compute_core_geodesic dci cusp).2 ultimate)
                  ((compute_core_geodesic dci cusp).2 penultimate))
      else none) = _
    rw [hpr, if_pos rfl]

theorem normalize_torsion_imag (p : ℚ) (z : Complex) :
    (normalize_torsion p z).imag =
      torsion_down (p + TORSION_EPSILON) (2 * p)
        (torsion_up (-p + TORSION_EPSILON) (2 * p) z.imag) := rfl

theorem gcd_cast_pos (m0 l0 : ℤ) (hz : ¬ (m0 = 0 ∧ l0 = 0)) :
    (0 : ℤ) < ((Int.gcd m0 l0 : ℕ) : ℤ) := by
  have hne : Int.gcd m0 l0 ≠ 0 := by
    intro h0
    exact hz (Int.gcd_eq_zero_iff.mp h0)
  exact_mod_cast Nat.pos_of_ne_zero hne

/-- C4 (amended): for every filled cusp with integer coefficients not both
zero (singularity index `n ≥ 1`), the imaginary part of each returned
snapshot length lies in the closed interval
`[-PI/n + TORSION_EPSILON, PI/n + TORSION_EPSILON]` (the original claim's
interval is open at the left endpoint, which the code does not
guarantee). -/
theorem C4_torsion_in_closed_interval (dci : Cusp → Bool) (cusp : Cusp)
    (m0 l0 : ℤ) (hc : cusp.is_complete = false) (hd : dci cusp = true)
    (hm : cusp.m = (m0 : ℚ)) (hl : cusp.l = (l0 : ℚ))
    (hz : ¬ (m0 = 0 ∧ l0 = 0)) (i : Fin 2) :
    -(PI / ((compute_core_geodesic dci cusp).1 : ℚ)) + TORSION_EPSILON
      ≤ ((compute_core_geodesic dci cusp).2 i).imag ∧
    ((compute_core_geodesic dci cusp).2 i).imag
      ≤ PI / ((compute_core_geodesic dci cusp).1 : ℚ) + TORSION_EPSILON := by
  rw [compute_filled_fst dci cusp m0 l0 hc hd hm hl,
      compute_filled_snd dci cusp m0 l0 hc hd hm hl i]
  rw [process_snapshot, klein_adjust_imag, normalize_torsion_imag]
  have hpon : 0 < PI / ((((Int.gcd m0 l0 : ℕ) : ℤ) : ℚ)) := by
    apply div_pos PI_pos
    exact_mod_cast gcd_cast_pos m0 l0 hz
  have hP : 0 < 2 * (PI / ((((Int.gcd m0 l0 : ℕ) : ℤ) : ℚ))) := by linarith
  constructor
  · apply torsion_down_ge _ _ _ _ hP (by linarith)
    exact torsion_up_ge _ _ _ hP
  · exact torsion_down_le _ _ _ hP

theorem torsion_up_fuel_mono (lo P : ℚ) (n m2 : ℕ) (x r : ℚ)
    (h : torsion_up_fuel lo P n x = some r) (hnm : n ≤ m2) :
    torsion_up_fuel lo P m2 x = some r := by
  induction n generalizing x m2 with
  | zero =>
    simp only [torsion_up_fuel] at h
    by_cases hg : 0 < P ∧ x < lo
    · rw [if_pos hg] at h
      exact absurd h (by simp)
    · rw [if_neg hg] at h
      cases m2 with
      | zero =>
        simp only [torsion_up_fuel]
        rw [if_neg hg]
        exact h
      | succ k =>
        simp only [torsion_up_fuel]
        rw [if_neg hg]
        exact h
  | succ k ih =>
    simp only [torsion_up_fuel] at h
    by_cases hg : 0 < P ∧ x < lo
    · rw [if_pos hg] at h
      obtain ⟨k2, rfl⟩ : ∃ k2, m2 = k2 + 1 := ⟨m2 - 1, by omega⟩
      simp only [torsion_up_fuel]
      rw [if_pos hg]
      exact ih _ _ h (by omega)
    · rw [if_neg hg] at h
      cases m2 with
      | zero =>
        simp only [torsion_up_fuel]
        rw [if_neg hg]
        exact h
      | succ k2 =>
        simp only [torsion_up_fuel]
        rw [if_neg hg]
        exact h

theorem torsion_down_fuel_mono (hi P : ℚ) (n m2 : ℕ) (x r : ℚ)
    (h : torsion_down_fuel hi P n x = some r) (hnm : n ≤ m2) :
    torsion_down_fuel hi P m2 x = some r := by
  induction n generalizing x m2 with
  | zero =>
    simp only [torsion_down_fuel] at h
    by_cases hg : 0 < P ∧ hi < x
    · rw [if_pos hg] at h
      exact absurd h (by simp)
    · rw [if_neg hg] at h
      cases m2 with
      | zero =>
        simp only [torsion_down_fuel]
        rw [if_neg hg]
        exact h
      | succ k =>
        simp only [torsion_down_fuel]
        rw [if_neg hg]
        exact h
  | succ k ih =>
    simp only [torsion_down_fuel] at h
    by_cases hg : 0 < P ∧ hi < x
    · rw [if_pos hg] at h
      obtain ⟨k2, rfl⟩ : ∃ k2, m2 = k2 + 1 := ⟨m2 - 1, by omega⟩
      simp only [torsion_down_fuel]
      rw [if_pos hg]
      exact ih _ _ h (by omega)
    · rw [if_neg hg] at h
      cases m2 with
      | zero =>
        simp only [torsion_down_fuel]
        rw [if_neg hg]
        exact h
      | succ k2 =>
        simp only [torsion_down_fuel]
        rw [if_neg hg]
        exact h

theorem torsion_up_fuel_sufficient (lo P x : ℚ) (hP : 0 < P) :
    ∃ n, torsion_up_fuel lo P n x = some (torsion_up lo P x) := by
  induction x using torsion_up.induct lo P with
  | case1 x h ih =>
    obtain ⟨n, hn⟩ := ih
    refine ⟨n + 1, ?_⟩
    rw [torsion_up.eq_def, dif_pos h]
    simp only [torsion_up_fuel]
    rw [if_pos h]
    exact hn
  | case2 x h =>
    refine ⟨0, ?_⟩
    rw [torsion_up.eq_def, dif_neg h]
    simp only [torsion_up_fuel]
    rw [if_neg h]

theorem torsion_down_fuel_sufficient (hi P x : ℚ) (hP : 0 < P) :
    ∃ n, torsion_down_fuel hi P n x = some (torsion_down hi P x) := by
  induction x using torsion_down.induct hi P with
  | case1 x h ih =>
    obtain ⟨n, hn⟩ := ih
    refine ⟨n + 1, ?_⟩
    rw [torsion_down.eq_def, dif_pos h]
    simp only [torsion_down_fuel]
    rw [if_pos h]
    exact hn
  | case2 x h =>
    refine ⟨0, ?_⟩
    rw [torsion_down.eq_def, dif_neg h]
    simp only [torsion_down_fuel]
    rw [if_neg h]

theorem normalize_torsion_fuel_sufficient (pon : ℚ) (z : Complex)
    (hp : 0 < pon) :
    ∃ n, normalize_torsion_fuel n pon z = some (normalize_torsion pon z) := by
  have hP : 0 < 2 * pon := by linarith
  obtain ⟨n1, h1⟩ :=
    torsion_up_fuel_sufficient (-pon + TORSION_EPSILON) (2 * pon) z.imag hP
  obtain ⟨n2, h2⟩ :=
    torsion_down_fuel_sufficient (pon + TORSION_EPSILON) (2 * pon)
      (torsion_up (-pon + TORSION_EPSILON) (2 * pon) z.imag) hP
  refine ⟨max n1 n2, ?_⟩
  rw [normalize_torsion_fuel]
  rw [torsion_up_fuel_mono _ _ _ _ _ _ h1 (le_max_left n1 n2)]
  simp only [Option.bind]
  rw [torsion_down_fuel_mono _ _ _ _ _ _ h2 (le_max_right n1 n2)]
  simp only [Option.bind]
  rfl

theorem normalize_torsion_fuel_mono (n m2 : ℕ) (pon : ℚ) (z w : Complex)
    (h : normalize_torsion_fuel n pon z = some w) (hnm : n ≤ m2) :
    normalize_torsion_fuel m2 pon z = some w := by
  rw [normalize_torsion_fuel] at h
  cases hu : torsion_up_fuel (-pon + TORSION_EPSILON) (2 * pon) n z.imag with
  | none =>
    rw [hu] at h
    exact absurd h (by simp [Option.bind])
  | some y =>
    rw [hu] at h
    simp only [Option.bind] at h
    cases hdn : torsion_down_fuel (pon + TORSION_EPSILON) (2 * pon) n y with
    | none =>
      rw [hdn] at h
      exact absurd h (by simp [Option.bind])
    | some y2 =>
      rw [hdn] at h
      simp only [Option.bind] at h
      rw [normalize_torsion_fuel]
      rw [torsion_up_fuel_mono _ _ _ _ _ _ hu hnm]
      simp only [Option.bind]
      rw [torsion_down_fuel_mono _ _ _ _ _ _ hdn hnm]
      simp only [Option.bind]
      exact h

theorem process_snapshot_fuel_sufficient (cusp : Cusp) (si d c : ℤ)
    (i : Fin 2) (hsi : (0 : ℤ) < si) :
    ∃ n, process_snapshot_fuel n cusp si d c i
      = some (process_snapshot cusp si d c i) := by
  have hp : 0 < PI / (si : ℚ) := by
    apply div_pos PI_pos
    exact_mod_cast hsi
  obtain ⟨n, hn⟩ := normalize_torsion_fuel_sufficient (PI / (si : ℚ))
    (fix_sign (raw_length d c (cusp.holonomy i M) (cusp.holonomy i L))) hp
  refine ⟨n, ?_⟩
  rw [process_snapshot_fuel, hn]
  simp only [Option.bind]
  rfl

theorem process_snapshot_fuel_mono (n m2 : ℕ) (cusp : Cusp) (si d c : ℤ)
    (i : Fin 2) (w : Complex)
    (h : process_snapshot_fuel n cusp si d c i = some w) (hnm : n ≤ m2) :
    process_snapshot_fuel m2 cusp si d c i = some w := by
  rw [process_snapshot_fuel] at h
  cases hn : normalize_torsion_fuel n (PI / (si : ℚ))
      (fix_sign (raw_length d c (cusp.holonomy i M) (cusp.holonomy i L))) with
  | none =>
    rw [hn] at h
    exact absurd h (by simp [Option.bind])
  | some z =>
    rw [hn] at h
    simp only [Option.bind] at h
    rw [process_snapshot_fuel]
    rw [normalize_torsion_fuel_mono _ _ _ _ _ hn hnm]
    simp only [Option.bind]
    exact h

/-- C9: for every filled cusp with integer coefficients not both zero (so
singularity index at least 1), the torsion-normalization loops terminate:
some fuel makes the fueled embedding of `compute_core_geodesic` (whose
loops give up when the fuel runs out) return the value of the total
function. -/
theorem C9_normalization_terminates (dci : Cusp → Bool) (cusp : Cusp)
    (m0 l0 : ℤ) (hc : cusp.is_complete = false) (hd : dci cusp = true)
    (hm : cusp.m = (m0 : ℚ)) (hl : cusp.l = (l0 : ℚ))
    (hz : ¬ (m0 = 0 ∧ l0 = 0)) :
    ∃ fuel, compute_core_geodesic_fuel fuel dci cusp
      = some (compute_core_geodesic dci cusp) := by
  have hsi : (0 : ℤ) < (euclidean_algorithm m0 l0).1 := gcd_cast_pos m0 l0 hz
  obtain ⟨n0, h0⟩ := process_snapshot_fuel_sufficient cusp
    (euclidean_algorithm m0 l0).1 (euclidean_algorithm m0 l0).2.1
    (euclidean_algorithm m0 l0).2.2 ultimate hsi
  obtain ⟨n1, h1⟩ := process_snapshot_fuel_sufficient cusp
    (euclidean_algorithm m0 l0).1 (euclidean_algorithm m0 l0).2.1
    (euclidean_algorithm m0 l0).2.2 penultimate hsi
  refine ⟨max n0 n1, ?_⟩
  rw [compute_core_geodesic_fuel, filled_cond_false dci cusp hc hd]
  rw [if_neg (by simp)]
  rw [hm, hl, trunc_intCast, trunc_intCast]
  rw [process_snapshot_fuel_mono _ _ _ _ _ _ _ _ h0 (le_max_left n0 n1)]
  simp only [Option.bind]
  rw [process_snapshot_fuel_mono _ _ _ _ _ _ _ _ h1 (le_max_right n0 n1)]
  simp only [Option.bind]
  rw [compute_core_geodesic_filled dci cusp m0 l0 hc hd hm hl]
  apply congrArg some
  apply Prod.ext
  · rfl
  · funext j
    dsimp only
    by_cases hj : j = ultimate
    · rw [if_pos hj, hj]
      rfl
    · rw [if_neg hj]
      have hj1 : j = penultimate := by
        fin_cases j
        · exact absurd rfl hj
        · rfl
      rw [hj1]
      rfl

/-- C4 (counterexample): at the filled cusp `cuspBoundary` with integer
coefficients `(1, 0)` (singularity index 1) whose ultimate longitude
holonomy has torsion exactly `-PI + TORSION_EPSILON`, the normalization
loops do not run and the returned torsion sits exactly at the left
endpoint, so it is NOT strictly greater than
`-PI/n + TORSION_EPSILON`: the half-open interval of the claim fails. -/
theorem C4_counterexample_left_endpoint :
    cuspBoundary.is_complete = false ∧
    dciTrue cuspBoundary = true ∧
    cuspBoundary.m = ((1 : ℤ) : ℚ) ∧
    cuspBoundary.l = ((0 : ℤ) : ℚ) ∧
    ¬ ((1 : ℤ) = 0 ∧ (0 : ℤ) = 0) ∧
    (compute_core_geodesic dciTrue cuspBoundary).1 = 1 ∧
    ((compute_core_geodesic dciTrue cuspBoundary).2 ultimate).imag
      = -PI + TORSION_EPSILON ∧
    ¬ (-(PI / ((compute_core_geodesic dciTrue cuspBoundary).1 : ℚ))
          + TORSION_EPSILON
        < ((compute_core_geodesic dciTrue cuspBoundary).2 ultimate).imag) := by
  have hm : cuspBoundary.m = ((1 : ℤ) : ℚ) := by norm_num [cuspBoundary]
  have hl : cuspBoundary.l = ((0 : ℤ) : ℚ) := by norm_num [cuspBoundary]
  have hfst : (compute_core_geodesic dciTrue cuspBoundary).1 = 1 := by
    rw [compute_filled_fst dciTrue cuspBoundary 1 0 rfl rfl hm hl]
    norm_num
  have hsnd := compute_filled_snd dciTrue cuspBoundary 1 0 rfl rfl hm hl ultimate
  have hgcd : ((Int.gcd 1 0 : ℕ) : ℤ) = 1 := by norm_num
  have hA : Int.gcdA 1 0 = 1 := by
    simp [Int.gcdA, Nat.gcdA, Nat.xgcd, Nat.xgcdAux]
  have hB : -(Int.gcdB 1 0) = 0 := by
    simp [Int.gcdB, Nat.gcdB, Nat.xgcd, Nat.xgcdAux]
  rw [hgcd, hA, hB] at hsnd
  have hhM : cuspBoundary.holonomy ultimate M = Zero := by
    show holBoundary ultimate M = Zero
    simp only [holBoundary]
    rw [if_neg (by decide)]
  have hhL : cuspBoundary.holonomy ultimate L
      = ⟨1, -PI + TORSION_EPSILON⟩ := by
    show holBoundary ultimate L = ⟨1, -PI + TORSION_EPSILON⟩
    simp only [holBoundary]
    rw [if_pos (by decide)]
  have hraw : raw_length 1 0 (cuspBoundary.holonomy ultimate M)
      (cuspBoundary.holonomy ultimate L) = ⟨1, -PI + TORSION_EPSILON⟩ := by
    rw [hhM, hhL, raw_length, complex_real_mult, complex_real_mult, complex_plus]
    show Complex.mk (((0 : ℤ) : ℚ) * (0 : ℚ) + ((1 : ℤ) : ℚ) * 1) _ = _
    norm_num
  have hfix : fix_sign (⟨1, -PI + TORSION_EPSILON⟩ : Complex)
      = ⟨1, -PI + TORSION_EPSILON⟩ := by
    rw [fix_sign, if_neg]
    show ¬ (1 : ℚ) < 0
    norm_num
  have hup : torsion_up (-(PI / ((1 : ℤ) : ℚ)) + TORSION_EPSILON)
      (2 * (PI / ((1 : ℤ) : ℚ))) (-PI + TORSION_EPSILON)
      = -PI + TORSION_EPSILON := by
    rw [torsion_up.eq_def, dif_neg]
    intro hcon
    have h2 := hcon.2
    rw [show ((1 : ℤ) : ℚ) = 1 by norm_num, div_one] at h2
    exact lt_irrefl _ h2
  have hdown : torsion_down (PI / ((1 : ℤ) : ℚ) + TORSION_EPSILON)
      (2 * (PI / ((1 : ℤ) : ℚ))) (-PI + TORSION_EPSILON)
      = -PI + TORSION_EPSILON := by
    rw [torsion_down.eq_def, dif_neg]
    intro hcon
    have h2 := hcon.2
    rw [show ((1 : ℤ) : ℚ) = 1 by norm_num, div_one] at h2
    have := PI_pos
    linarith
  have himag : ((compute_core_geodesic dciTrue cuspBoundary).2 ultimate).imag
      = -PI + TORSION_EPSILON := by
    rw [hsnd, process_snapshot, klein_adjust_imag, normalize_torsion_imag]
    rw [hraw, hfix]
    show torsion_down (PI / ((1 : ℤ) : ℚ) + TORSION_EPSILON)
        (2 * (PI / ((1 : ℤ) : ℚ)))
        (torsion_up (-(PI / ((1 : ℤ) : ℚ)) + TORSION_EPSILON)
          (2 * (PI / ((1 : ℤ) : ℚ))) (-PI + TORSION_EPSILON))
      = -PI + TORSION_EPSILON
    rw [hup, hdown]
  refine ⟨rfl, rfl, hm, hl, by decide, hfst, himag, ?_⟩
  rw [hfst, himag]
  rw [show ((1 : ℤ) : ℚ) = 1 by norm_num, div_one]
  exact lt_irrefl _

theorem C1_witness_four_zero :
    cuspFour.is_complete = false ∧
    dciTrue cuspFour = true ∧
    cuspFour.m = ((4 : ℤ) : ℚ) ∧
    cuspFour.l = ((0 : ℤ) : ℚ) ∧
    ¬ ((4 : ℤ) = 0 ∧ (0 : ℤ) = 0) ∧
    (compute_core_geodesic dciTrue cuspFour).1
      = ((Nat.gcd (Int.natAbs 4) (Int.natAbs 0) : ℕ) : ℤ) ∧
    (compute_core_geodesic dciTrue cuspFour).1 = 4 := by
  have hm : cuspFour.m = ((4 : ℤ) : ℚ) := by norm_num [cuspFour]
  have hl : cuspFour.l = ((0 : ℤ) : ℚ) := by norm_num [cuspFour]
  have h := C1_singularity_index_is_gcd dciTrue cuspFour 4 0 rfl rfl hm hl
    (by decide)
  refine ⟨rfl, rfl, hm, hl, by decide, h, ?_⟩
  rw [h]
  norm_num

theorem C2_witness_one_two :
    cuspStd.is_complete = false ∧
    dciTrue cuspStd = true ∧
    cuspStd.m = ((1 : ℤ) : ℚ) ∧
    cuspStd.l = ((2 : ℤ) : ℚ) ∧
    ¬ ((1 : ℤ) = 0 ∧ (2 : ℤ) = 0) ∧
    ((euclidean_algorithm 1 2).2.1 * 1 - (euclidean_algorithm 1 2).2.2 * 2
        = (euclidean_algorithm 1 2).1 ∧
     (euclidean_algorithm 1 2).1
        = ((Nat.gcd (Int.natAbs 1) (Int.natAbs 2) : ℕ) : ℤ) ∧
     raw_length (euclidean_algorithm 1 2).2.1 (euclidean_algorithm 1 2).2.2
         (cuspStd.holonomy ultimate M) (cuspStd.holonomy ultimate L)
       = complex_plus
           (complex_real_mult (-((euclidean_algorithm 1 2).2.2 : ℚ))
             (cuspStd.holonomy ultimate M))
           (complex_real_mult (((euclidean_algorithm 1 2).2.1 : ℚ))
             (cuspStd.holonomy ultimate L)) ∧
     (compute_core_geodesic dciTrue cuspStd).2 ultimate
       = klein_adjust cuspStd.topology
           (normalize_torsion (PI / ((euclidean_algorithm 1 2).1 : ℚ))
             (fix_sign
               (raw_length (euclidean_algorithm 1 2).2.1
                 (euclidean_algorithm 1 2).2.2
                 (cuspStd.holonomy ultimate M)
                 (cuspStd.holonomy ultimate L))))) := by
  have hm : cuspStd.m = ((1 : ℤ) : ℚ) := by norm_num [cuspStd]
  have hl : cuspStd.l = ((2 : ℤ) : ℚ) := by norm_num [cuspStd]
  exact ⟨rfl, rfl, hm, hl, by decide,
    C2_length_formula dciTrue cuspStd 1 2 rfl rfl hm hl (by decide) ultimate⟩

theorem C3_witness_complete :
    (cuspComplete.is_complete = true ∨ dciTrue cuspComplete = false) ∧
    ((compute_core_geodesic dciTrue cuspComplete).1 = 0 ∧
     (compute_core_geodesic dciTrue cuspComplete).2 ultimate = Zero ∧
     (compute_core_geodesic dciTrue cuspComplete).2 penultimate = Zero) :=
  ⟨Or.inl rfl, C3_short_circuit_zero dciTrue cuspComplete (Or.inl rfl)⟩

theorem C4_witness_interval :
    cuspStd.is_complete = false ∧
    dciTrue cuspStd = true ∧
    cuspStd.m = ((1 : ℤ) : ℚ) ∧
    cuspStd.l = ((2 : ℤ) : ℚ) ∧
    ¬ ((1 : ℤ) = 0 ∧ (2 : ℤ) = 0) ∧
    (-(PI / ((compute_core_geodesic dciTrue cuspStd).1 : ℚ)) + TORSION_EPSILON
       ≤ ((compute_core_geodesic dciTrue cuspStd).2 ultimate).imag ∧
     ((compute_core_geodesic dciTrue cuspStd).2 ultimate).imag
       ≤ PI / ((compute_core_geodesic dciTrue cuspStd).1 : ℚ)
           + TORSION_EPSILON) := by
  have hm : cuspStd.m = ((1 : ℤ) : ℚ) := by norm_num [cuspStd]
  have hl : cuspStd.l = ((2 : ℤ) : ℚ) := by norm_num [cuspStd]
  exact ⟨rfl, rfl, hm, hl, by decide,
    C4_torsion_in_closed_interval dciTrue cuspStd 1 2 rfl rfl hm hl
      (by decide) ultimate⟩

theorem C5_witness_one_two :
    cuspStd.is_complete = false ∧
    dciTrue cuspStd = true ∧
    cuspStd.m = ((1 : ℤ) : ℚ) ∧
    cuspStd.l = ((2 : ℤ) : ℚ) ∧
    ¬ ((1 : ℤ) = 0 ∧ (2 : ℤ) = 0) ∧
    0 ≤ ((compute_core_geodesic dciTrue cuspStd).2 ultimate).real := by
  have hm : cuspStd.m = ((1 : ℤ) : ℚ) := by norm_num [cuspStd]
  have hl : cuspStd.l = ((2 : ℤ) : ℚ) := by norm_num [cuspStd]
  exact ⟨rfl, rfl, hm, hl, by decide,
    C5_real_part_nonneg dciTrue cuspStd 1 2 rfl rfl hm hl (by decide) ultimate⟩

theorem C6_witness_std :
    dciTrue { cuspStd with topology := CuspTopology.Klein_cusp }
      = dciTrue cuspStd ∧
    cuspStd.topology = CuspTopology.torus_cusp ∧
    (((compute_core_geodesic dciTrue
         { cuspStd with topology := CuspTopology.Klein_cusp }).2 ultimate).real
       = ((compute_core_geodesic dciTrue cuspStd).2 ultimate).real / 2 ∧
     ((compute_core_geodesic dciTrue
         { cuspStd with topology := CuspTopology.Klein_cusp }).2 ultimate).imag
       = ((compute_core_geodesic dciTrue cuspStd).2 ultimate).imag) :=
  ⟨rfl, rfl, C6_klein_halving dciTrue cuspStd rfl rfl ultimate⟩

theorem C7_witness_complete :
    (core_geodesic dciTrue (fun _ _ => (0 : ℤ)) cuspComplete true).1
      = (compute_core_geodesic dciTrue cuspComplete).1 ∧
    (compute_core_geodesic dciTrue cuspComplete).1 = 0 ∧
    (core_geodesic dciTrue (fun _ _ => (0 : ℤ)) cuspComplete true).2.1
      = Zero ∧
    (core_geodesic dciTrue (fun _ _ => (0 : ℤ)) cuspComplete true).2.2
      = some 0 := by
  have h := C7_wrapper_packaging dciTrue (fun _ _ => (0 : ℤ)) cuspComplete true
  have h0 : (compute_core_geodesic dciTrue cuspComplete).1 = 0 := rfl
  exact ⟨h.1, h0, (h.2.1 h0).1, (h.2.1 h0).2.1 rfl⟩

theorem C9_witness_one_two :
    cuspStd.is_complete = false ∧
    dciTrue cuspStd = true ∧
    cuspStd.m = ((1 : ℤ) : ℚ) ∧
    cuspStd.l = ((2 : ℤ) : ℚ) ∧
    ¬ ((1 : ℤ) = 0 ∧ (2 : ℤ) = 0) ∧
    ∃ fuel, compute_core_geodesic_fuel fuel dciTrue cuspStd
      = some (compute_core_geodesic dciTrue cuspStd) := by
  have hm : cuspStd.m = ((1 : ℤ) : ℚ) := by norm_num [cuspStd]
  have hl : cuspStd.l = ((2 : ℤ) : ℚ) := by norm_num [cuspStd]
  exact ⟨rfl, rfl, hm, hl, by decide,
    C9_normalization_terminates dciTrue cuspStd 1 2 rfl rfl hm hl (by decide)⟩

theorem C10_witness_near_four :
    cuspNearFour.is_complete = false ∧
    dciTrue cuspNearFour = true ∧
    cuspNearFour.m = 4 - 1/1000 ∧
    cuspNearFour.l = 0 ∧
    (0 : ℚ) < 1/1000 ∧
    (1/1000 : ℚ) < 1 ∧
    (trunc cuspNearFour.m = 3 ∧
     (compute_core_geodesic dciTrue cuspNearFour).1 =
       ((Int.gcd (trunc cuspNearFour.m) (trunc cuspNearFour.l) : ℕ) : ℤ) ∧
     (compute_core_geodesic dciTrue cuspNearFour).1 = 3) := by
  have hm : cuspNearFour.m = 4 - 1/1000 := rfl
  have hl : cuspNearFour.l = 0 := rfl
  exact ⟨rfl, rfl, hm, hl, by norm_num, by norm_num,
    C10_truncation_toward_zero dciTrue cuspNearFour (1/1000) rfl rfl hm hl
      (by norm_num) (by norm_num)⟩

end SnapPea
